import Mathlib

/-
Verification of the record/codec/parser framework in
src/common/test_framework.h (namespace TestFramework).

Strings are modelled as `List Char`; a `StringSegment` is a view whose
mutating operations only narrow the view, so each segment operation is
embedded as a pure function `List Char → List Char` (or returns the pieces
the C++ call leaves behind).  C++ `int` is modelled as `Int` with the
source's explicit guards against leaving the signed 32-bit range; the
out-parameter convention `bool Parse(seg, T& result)` is embedded as a
function returning the pair (final value of `result`, returned bool), so
the value written through the reference on a failing parse is preserved.
-/

--============================================================
-- Safe <cctype> helpers (tf_isspace / tf_isdigit / tf_tolower)
--============================================================

/-- C-locale `isspace`: space (0x20) or one of 0x09..0x0D. -/
def tfIsSpace (c : Char) : Bool :=
  c.toNat == 32 || (9 ≤ c.toNat && c.toNat ≤ 13)

/-- C-locale `isdigit`: codes 48..57. -/
def tfIsDigit (c : Char) : Bool :=
  48 ≤ c.toNat && c.toNat ≤ 57

/-- C-locale `tolower`: maps A..Z (65..90) to a..z, every other char unchanged. -/
def tfToLower (c : Char) : Char :=
  if 65 ≤ c.toNat ∧ c.toNat ≤ 90 then Char.ofNat (c.toNat + 32) else c

/-- The trimming predicate of StringSegment::TrimLeft/TrimRight:
`tf_isspace(c) || c == '\r'` (the second disjunct is redundant, kept as in
the source). -/
def spaceOrCR (c : Char) : Bool :=
  tfIsSpace c || c == '\r'

--============================================================
-- StringSegment operations
--============================================================

/-- StringSegment::TrimLeft. -/
def trimLeftSeg (l : List Char) : List Char := l.dropWhile spaceOrCR

/-- StringSegment::TrimRight (removes trailing chars matching the predicate). -/
def trimRightSeg (l : List Char) : List Char :=
  (l.reverse.dropWhile spaceOrCR).reverse

/-- StringSegment::Trim = TrimLeft; TrimRight. -/
def trimSeg (l : List Char) : List Char := trimRightSeg (trimLeftSeg l)

/-- StringSegment::Match (case-insensitive form, the default): the pattern
and the view must have equal length and match pointwise after `tolower`. -/
def ssMatch (pat v : List Char) : Bool :=
  pat.length == v.length && (pat.zip v).all (fun p => tfToLower p.1 == tfToLower p.2)

/-- StringSegment::Split at the first occurrence of `delim`.  Returns
(returned bool, final `prefix` segment, final `*this` segment): an empty
view yields false with an empty prefix; otherwise the prefix is the part
before the first delimiter and `*this` becomes the part after it (the whole
view and an empty rest when the delimiter does not occur). -/
def ssSplit (delim : Char) (s : List Char) : Bool × List Char × List Char :=
  if s = [] then (false, [], [])
  else if delim ∈ s then
    (true, s.takeWhile (fun c => c != delim), (s.dropWhile (fun c => c != delim)).drop 1)
  else (true, s, [])

--============================================================
-- Basic lemmas about the segment operations
--============================================================

theorem dropWhile_dropWhile (p : Char → Bool) (l : List Char) :
    (l.dropWhile p).dropWhile p = l.dropWhile p := by
  induction l with
  | nil => rfl
  | cons a l ih =>
    by_cases h : p a
    · simp [List.dropWhile_cons, h, ih]
    · simp [List.dropWhile_cons, h]

theorem dropWhile_append_of_neg (p : Char → Bool) (A : List Char) (c : Char)
    (hc : p c = false) :
    (A ++ [c]).dropWhile p = A.dropWhile p ++ [c] := by
  induction A with
  | nil => simp [List.dropWhile_cons, hc]
  | cons a A ih =>
    by_cases h : p a
    · simp [List.dropWhile_cons, h, ih]
    · simp [List.dropWhile_cons, h]

/-- The head of a `dropWhile p` result does not satisfy `p`. -/
theorem head_dropWhile_false (p : Char → Bool) (l : List Char) (a : Char) (t : List Char)
    (h : l.dropWhile p = a :: t) : p a = false := by
  induction l with
  | nil => simp at h
  | cons x l ih =>
    rw [List.dropWhile_cons] at h
    by_cases hx : p x = true
    · simp only [hx, if_true] at h; exact ih h
    · simp only [hx, if_false] at h
      have hxa : x = a := (List.cons.injEq x l a t ▸ h).1
      rw [← hxa]
      exact Bool.not_eq_true _ ▸ hx

/-- If trimming yields `a :: t` then `a` is not a space. -/
theorem trimSeg_head_not_space (l : List Char) (a : Char) (t : List Char)
    (h : trimSeg l = a :: t) : spaceOrCR a = false := by
  unfold trimSeg trimRightSeg trimLeftSeg at h
  rcases hL : (l.dropWhile spaceOrCR) with _ | ⟨b, u⟩
  · rw [hL] at h; simp at h
  · have hb : spaceOrCR b = false := head_dropWhile_false _ _ _ _ hL
    rw [hL] at h
    have hrw : ((b :: u).reverse.dropWhile spaceOrCR).reverse =
        b :: ((u.reverse.dropWhile spaceOrCR).reverse) := by
      have h1 : (b :: u).reverse = u.reverse ++ [b] := by simp
      rw [h1, dropWhile_append_of_neg _ _ _ hb]
      simp
    rw [hrw] at h
    have : b = a := (List.cons.injEq b _ a t ▸ h).1
    rw [← this]
    exact hb

/-- Trimming is idempotent. -/
theorem trimSeg_idem (l : List Char) : trimSeg (trimSeg l) = trimSeg l := by
  cases hT : trimSeg l with
  | nil => rfl
  | cons a t =>
    have ha : spaceOrCR a = false := trimSeg_head_not_space l a t hT
    have hcons : (a :: t).dropWhile spaceOrCR = a :: t := by
      rw [List.dropWhile_cons]; simp [ha]
    have hD : (trimSeg l).reverse.dropWhile spaceOrCR = (trimSeg l).reverse := by
      simp only [trimSeg, trimRightSeg, trimLeftSeg, List.reverse_reverse]
      exact dropWhile_dropWhile _ _
    calc trimSeg (a :: t)
        = ((a :: t).reverse.dropWhile spaceOrCR).reverse := by
          simp only [trimSeg, trimRightSeg, trimLeftSeg, hcons]
      _ = ((trimSeg l).reverse.dropWhile spaceOrCR).reverse := by rw [hT]
      _ = (trimSeg l).reverse.reverse := by rw [hD]
      _ = a :: t := by rw [hT]; simp

/-- If no character of `l` satisfies the trimming predicate, trimming is the
identity. -/
theorem trimSeg_of_no_space (l : List Char) (h : ∀ c ∈ l, spaceOrCR c = false) :
    trimSeg l = l := by
  unfold trimSeg trimRightSeg trimLeftSeg
  have h1 : l.dropWhile spaceOrCR = l := by
    cases l with
    | nil => rfl
    | cons a t => rw [List.dropWhile_cons]; simp [h a (by simp)]
  rw [h1]
  have h2 : l.reverse.dropWhile spaceOrCR = l.reverse := by
    cases hR : l.reverse with
    | nil => rfl
    | cons a t =>
      rw [List.dropWhile_cons]
      have : a ∈ l := by
        have : a ∈ l.reverse := by rw [hR]; simp
        simpa using this
      simp [h a this]
  rw [h2, List.reverse_reverse]

--============================================================
-- Parsing helpers (the Parse overloads)
--============================================================

/-- Decimal digit value of a char, `c - '0'` as in the source. -/
def dval (c : Char) : Int := (c.toNat : Int) - 48

/-- The accumulation loop of `Parse(StringSegment, int&)`.  `r` is the
current value of `result`, `sign` is `1` or `-1`.  The guards compare
against `INT_MAX/10 = 214748364`, `INT_MAX%10 = 7`, `INT_MIN/10 =
-214748364` and `INT_MIN%10 = -8` (C++ division truncates toward zero).
Returns the pair (final value of `result`, returned bool). -/
def parseIntLoop : List Char → Int → Int → Int × Bool
  | [], r, _ => (r, true)
  | c :: cs, r, sign =>
    if tfIsDigit c = false then (r, false)
    else
      let d := dval c * sign
      if r > 214748364 ∨ r < -214748364 ∨ (r = 214748364 ∧ d > 7) ∨
          (r = -214748364 ∧ d < -8) then (r, false)
      else parseIntLoop cs (r * 10 + d) sign

/-- `Parse(StringSegment, int&)`: sets `result = 0`, trims, reads an
optional leading minus sign, then accumulates digits with overflow guards.
Returns (final value of `result`, returned bool). -/
def parseInt (s : List Char) : Int × Bool :=
  match trimSeg s with
  | [] => (0, false)
  | c :: cs =>
    if c = '-' then
      if cs = [] then (0, false) else parseIntLoop cs 0 (-1)
    else parseIntLoop (c :: cs) 0 1

/-- `Parse(StringSegment, std::string&)`: trims, requires length at least 2
and a surrounding pair of double quotes, and copies the inside out.  The
out-parameter is written only on success, so the old value `old` is the
result on failure. -/
def parseStringQ (old : List Char) (s : List Char) : List Char × Bool :=
  let t := trimSeg s
  if t.length < 2 then (old, false)
  else if t.head? ≠ some '"' ∨ t.getLast? ≠ some '"' then (old, false)
  else ((t.drop 1).dropLast, true)

/-- `Parse(StringSegment, bool&)`: trims, then matches (case-insensitively)
the vocabularies true/yes and false/no.  The out-parameter is written only
on success. -/
def parseBool (old : Bool) (s : List Char) : Bool × Bool :=
  let t := trimSeg s
  if ssMatch ("true".toList) t || ssMatch ("yes".toList) t then (true, true)
  else if ssMatch ("false".toList) t || ssMatch ("no".toList) t then (false, true)
  else (old, false)

/-- The element loop of `Parse(StringSegment, std::vector<int>&)`:

    while (!prefix.IsEmpty()) {
      if (!Parse(prefix, v)) return false;
      result.push_back(v);
      if (!segment.Split(',', prefix)) break;
    }
    return true;

`acc` is the current content of `result`.  The C++ loop terminates because
each successful `Split` strictly shrinks `segment`; the `fuel` argument
makes that measure explicit (callers pass `fuel ≥ segment.length`, so the
fuel-exhausted branch is unreachable, see `parseSeqLoop_fuel`). -/
def parseSeqLoop (fuel : Nat) (seg pre : List Char) (acc : List Int) :
    List Int × Bool :=
  if pre = [] then (acc, true)
  else
    match parseInt pre with
    | (_, false) => (acc, false)
    | (v, true) =>
      match ssSplit ',' seg with
      | (true, pre2, seg2) =>
        match fuel with
        | 0 => (acc ++ [v], false)
        | f + 1 => parseSeqLoop f seg2 pre2 (acc ++ [v])
      | (false, _, _) => (acc ++ [v], true)

/-- `Parse(StringSegment, std::vector<int>&)`: clears `result`, trims,
strips one char from each end which must be `[` and `]` (reading from an
empty segment yields `'\0'`), trims the interior, and runs the element
loop after an initial `Split`.  Returns (final content of `result`,
returned bool). -/
def parseIntList (s : List Char) : List Int × Bool :=
  match trimSeg s with
  | [] => ([], false)
  | first :: rest =>
    let last := rest.getLast?.getD '\x00'
    if first ≠ '[' ∨ last ≠ ']' then ([], false)
    else
      let interior := trimSeg rest.dropLast
      if interior = [] then ([], true)
      else
        let r := ssSplit ',' interior
        parseSeqLoop interior.length r.2.2 r.2.1 []

--============================================================
-- Value of a digit string, and facts about the integer loop
--============================================================

/-- Numeric value of a most-significant-first digit string. -/
def intVal : List Char → Int
  | [] => 0
  | c :: cs => dval c * 10 ^ cs.length + intVal cs

theorem dval_bounds (c : Char) (h : tfIsDigit c = true) : 0 ≤ dval c ∧ dval c ≤ 9 := by
  unfold tfIsDigit at h
  unfold dval
  have h1 := (Bool.and_eq_true _ _).mp h
  have h2 : 48 ≤ c.toNat := by exact_mod_cast of_decide_eq_true h1.1
  have h3 : c.toNat ≤ 57 := by exact_mod_cast of_decide_eq_true h1.2
  omega

theorem intVal_nonneg (ds : List Char) (h : ∀ c ∈ ds, tfIsDigit c = true) :
    0 ≤ intVal ds := by
  induction ds with
  | nil => simp [intVal]
  | cons c cs ih =>
    have hc := dval_bounds c (h c (by simp))
    have hcs := ih (fun x hx => h x (by simp [hx]))
    have hp : (0:Int) ≤ 10 ^ cs.length := by positivity
    unfold intVal
    have := mul_nonneg hc.1 hp
    omega

theorem intVal_lt (ds : List Char) (h : ∀ c ∈ ds, tfIsDigit c = true) :
    intVal ds < 10 ^ ds.length := by
  induction ds with
  | nil => simp [intVal]
  | cons c cs ih =>
    have hc := dval_bounds c (h c (by simp))
    have hcs := ih (fun x hx => h x (by simp [hx]))
    have hp : (0:Int) < 10 ^ cs.length := by positivity
    unfold intVal
    have h9 : dval c * 10 ^ cs.length ≤ 9 * 10 ^ cs.length :=
      mul_le_mul_of_nonneg_right hc.2 (le_of_lt hp)
    have : (10:Int) ^ (c :: cs).length = 10 * 10 ^ cs.length := by
      rw [List.length_cons, pow_succ]; ring
    rw [this]
    omega

/-- The overflow guard, for nonnegative accumulation (`sign = 1`), fires
exactly when the next step would exceed `INT_MAX`. -/
theorem guard_pos_iff (r d : Int) (hr : 0 ≤ r) (hd0 : 0 ≤ d) (hd9 : d ≤ 9) :
    (r > 214748364 ∨ r < -214748364 ∨ (r = 214748364 ∧ d > 7) ∨
      (r = -214748364 ∧ d < -8)) ↔ r * 10 + d > 2147483647 := by omega

/-- The overflow guard, for nonpositive accumulation (`sign = -1`), fires
exactly when the next step would go below `INT_MIN`. -/
theorem guard_neg_iff (r d : Int) (hr : r ≤ 0) (hd0 : -9 ≤ d) (hd9 : d ≤ 0) :
    (r > 214748364 ∨ r < -214748364 ∨ (r = 214748364 ∧ d > 7) ∨
      (r = -214748364 ∧ d < -8)) ↔ r * 10 + d < -2147483648 := by omega

theorem le_mul_pow_self (x : Int) (n : Nat) (hx : 0 ≤ x) : x ≤ x * 10 ^ n := by
  have h1 : (1:Int) ≤ 10 ^ n := one_le_pow₀ (by norm_num)
  calc x = x * 1 := by ring
    _ ≤ x * 10 ^ n := mul_le_mul_of_nonneg_left h1 hx

theorem mul_pow_self_le (x : Int) (n : Nat) (hx : x ≤ 0) : x * 10 ^ n ≤ x := by
  have h1 : (1:Int) ≤ 10 ^ n := one_le_pow₀ (by norm_num)
  calc x * 10 ^ n ≤ x * 1 := mul_le_mul_of_nonpos_left h1 hx
    _ = x := by ring

/-- Success case of the loop for `sign = 1`: if the full value stays within
`INT_MAX`, the loop returns it with `true`. -/
theorem parseIntLoop_pos_ok (ds : List Char) : ∀ r : Int,
    (∀ c ∈ ds, tfIsDigit c = true) → 0 ≤ r →
    r * 10 ^ ds.length + intVal ds ≤ 2147483647 →
    parseIntLoop ds r 1 = (r * 10 ^ ds.length + intVal ds, true) := by
  induction ds with
  | nil => intro r _ _ _; simp [parseIntLoop, intVal]
  | cons c cs ih =>
    intro r hdig hr hle
    have hc : tfIsDigit c = true := hdig c (by simp)
    have hd := dval_bounds c hc
    have hvcs0 : 0 ≤ intVal cs := intVal_nonneg cs (fun x hx => hdig x (by simp [hx]))
    have hsplit : r * 10 ^ (c :: cs).length + intVal (c :: cs) =
        (r * 10 + dval c) * 10 ^ cs.length + intVal cs := by
      simp only [intVal, List.length_cons, pow_succ]
      ring
    have hstep : (r * 10 + dval c) ≤ 2147483647 := by
      have h1 : (r * 10 + dval c) ≤ (r * 10 + dval c) * 10 ^ cs.length :=
        le_mul_pow_self _ _ (by omega)
      omega
    have hguard : ¬(r > 214748364 ∨ r < -214748364 ∨ (r = 214748364 ∧ dval c * 1 > 7) ∨
        (r = -214748364 ∧ dval c * 1 < -8)) := by
      rw [show dval c * 1 = dval c by ring]
      rw [guard_pos_iff r (dval c) hr hd.1 hd.2]
      omega
    unfold parseIntLoop
    rw [hc]
    simp only [Bool.true_eq_false, if_false, hguard, if_neg, not_false_iff]
    rw [ih (r * 10 + dval c * 1) (fun x hx => hdig x (by simp [hx]))
        (by have := hd.1; omega)
        (by rw [show r * 10 + dval c * 1 = r * 10 + dval c by ring]; omega)]
    rw [hsplit]
    ring_nf

/-- Failure case of the loop for `sign = 1`: if the full value would exceed
`INT_MAX`, the loop reports failure. -/
theorem parseIntLoop_pos_ovf (ds : List Char) : ∀ r : Int,
    (∀ c ∈ ds, tfIsDigit c = true) → 0 ≤ r → r ≤ 2147483647 →
    2147483647 < r * 10 ^ ds.length + intVal ds →
    (parseIntLoop ds r 1).2 = false := by
  induction ds with
  | nil =>
    intro r _ hr0 hr1 hgt
    simp only [List.length_nil, pow_zero, mul_one, intVal, add_zero] at hgt
    omega
  | cons c cs ih =>
    intro r hdig hr hrmax hgt
    have hc : tfIsDigit c = true := hdig c (by simp)
    have hd := dval_bounds c hc
    have hvcs0 : 0 ≤ intVal cs := intVal_nonneg cs (fun x hx => hdig x (by simp [hx]))
    have hsplit : r * 10 ^ (c :: cs).length + intVal (c :: cs) =
        (r * 10 + dval c) * 10 ^ cs.length + intVal cs := by
      simp only [intVal, List.length_cons, pow_succ]
      ring
    unfold parseIntLoop
    rw [hc]
    simp only [Bool.true_eq_false, if_false]
    by_cases hguard : (r > 214748364 ∨ r < -214748364 ∨ (r = 214748364 ∧ dval c * 1 > 7) ∨
        (r = -214748364 ∧ dval c * 1 < -8))
    · rw [if_pos hguard]
    · rw [if_neg hguard]
      rw [show dval c * 1 = dval c by ring] at hguard
      rw [guard_pos_iff r (dval c) hr hd.1 hd.2] at hguard
      have hstep : r * 10 + dval c ≤ 2147483647 := by omega
      have hnext : 2147483647 < (r * 10 + dval c) * 10 ^ cs.length + intVal cs := by
        omega
      have := ih (r * 10 + dval c * 1) (fun x hx => hdig x (by simp [hx]))
        (by have := hd.1; omega)
        (by rw [show r * 10 + dval c * 1 = r * 10 + dval c by ring]; omega)
        (by rw [show r * 10 + dval c * 1 = r * 10 + dval c by ring]; omega)
      exact this

/-- Success case of the loop for `sign = -1`: if the full value stays within
`INT_MIN`, the loop returns it with `true`. -/
theorem parseIntLoop_neg_ok (ds : List Char) : ∀ r : Int,
    (∀ c ∈ ds, tfIsDigit c = true) → r ≤ 0 →
    -2147483648 ≤ r * 10 ^ ds.length - intVal ds →
    parseIntLoop ds r (-1) = (r * 10 ^ ds.length - intVal ds, true) := by
  induction ds with
  | nil => intro r _ _ _; simp [parseIntLoop, intVal]
  | cons c cs ih =>
    intro r hdig hr hge
    have hc : tfIsDigit c = true := hdig c (by simp)
    have hd := dval_bounds c hc
    have hvcs0 : 0 ≤ intVal cs := intVal_nonneg cs (fun x hx => hdig x (by simp [hx]))
    have hsplit : r * 10 ^ (c :: cs).length - intVal (c :: cs) =
        (r * 10 + dval c * (-1)) * 10 ^ cs.length - intVal cs := by
      simp only [intVal, List.length_cons, pow_succ]
      ring
    have hstep : -2147483648 ≤ r * 10 + dval c * (-1) := by
      have h1 : (r * 10 + dval c * (-1)) * 10 ^ cs.length ≤ r * 10 + dval c * (-1) :=
        mul_pow_self_le _ _ (by omega)
      omega
    have hguard : ¬(r > 214748364 ∨ r < -214748364 ∨ (r = 214748364 ∧ dval c * (-1) > 7) ∨
        (r = -214748364 ∧ dval c * (-1) < -8)) := by
      rw [guard_neg_iff r (dval c * (-1)) hr (by omega) (by omega)]
      omega
    unfold parseIntLoop
    rw [hc]
    simp only [Bool.true_eq_false, if_false, hguard, if_neg, not_false_iff]
    rw [ih (r * 10 + dval c * (-1)) (fun x hx => hdig x (by simp [hx]))
        (by omega)
        (by omega)]
    rw [hsplit]

/-- Failure case of the loop for `sign = -1`: if the full value would go
below `INT_MIN`, the loop reports failure. -/
theorem parseIntLoop_neg_ovf (ds : List Char) : ∀ r : Int,
    (∀ c ∈ ds, tfIsDigit c = true) → r ≤ 0 → -2147483648 ≤ r →
    r * 10 ^ ds.length - intVal ds < -2147483648 →
    (parseIntLoop ds r (-1)).2 = false := by
  induction ds with
  | nil =>
    intro r _ hr0 hr1 hlt
    simp only [List.length_nil, pow_zero, mul_one, intVal, sub_zero] at hlt
    omega
  | cons c cs ih =>
    intro r hdig hr hrmin hlt
    have hc : tfIsDigit c = true := hdig c (by simp)
    have hd := dval_bounds c hc
    have hvcs0 : 0 ≤ intVal cs := intVal_nonneg cs (fun x hx => hdig x (by simp [hx]))
    have hsplit : r * 10 ^ (c :: cs).length - intVal (c :: cs) =
        (r * 10 + dval c * (-1)) * 10 ^ cs.length - intVal cs := by
      simp only [intVal, List.length_cons, pow_succ]
      ring
    unfold parseIntLoop
    rw [hc]
    simp only [Bool.true_eq_false, if_false]
    by_cases hguard : (r > 214748364 ∨ r < -214748364 ∨ (r = 214748364 ∧ dval c * (-1) > 7) ∨
        (r = -214748364 ∧ dval c * (-1) < -8))
    · rw [if_pos hguard]
    · rw [if_neg hguard]
      rw [guard_neg_iff r (dval c * (-1)) hr (by omega) (by omega)] at hguard
      have hnext : (r * 10 + dval c * (-1)) * 10 ^ cs.length - intVal cs < -2147483648 := by
        omega
      exact ih (r * 10 + dval c * (-1)) (fun x hx => hdig x (by simp [hx]))
        (by omega) (by omega) hnext

theorem digit_not_space (c : Char) (h : tfIsDigit c = true) : spaceOrCR c = false := by
  unfold tfIsDigit at h
  have h1 := (Bool.and_eq_true _ _).mp h
  have h2 : 48 ≤ c.toNat := of_decide_eq_true h1.1
  unfold spaceOrCR tfIsSpace
  have hr : (c == '\r') = false := by
    refine beq_eq_false_iff_ne.mpr ?_
    intro hc
    subst hc
    exact absurd h2 (by decide)
  have h32 : (c.toNat == 32) = false := by
    refine beq_eq_false_iff_ne.mpr ?_
    omega
  have h913 : (decide (9 ≤ c.toNat) && decide (c.toNat ≤ 13)) = false := by
    have h13 : ¬ (c.toNat ≤ 13) := by omega
    simp [h13]
  rw [h32, h913, hr]
  rfl

theorem digit_ne_minus (c : Char) (h : tfIsDigit c = true) : c ≠ '-' := by
  intro hc
  rw [hc] at h
  simp [tfIsDigit] at h

/-- `Parse(StringSegment, int&)` on a pure digit string: succeeds exactly
when the value fits below `INT_MAX`, and then returns the value. -/
theorem parseInt_digits (ds : List Char) (hne : ds ≠ [])
    (hdig : ∀ c ∈ ds, tfIsDigit c = true) :
    (intVal ds ≤ 2147483647 → parseInt ds = (intVal ds, true)) ∧
    (2147483647 < intVal ds → (parseInt ds).2 = false) := by
  have htrim : trimSeg ds = ds :=
    trimSeg_of_no_space ds (fun c hc => digit_not_space c (hdig c hc))
  cases hds : ds with
  | nil => exact absurd hds hne
  | cons c cs =>
    rw [hds] at htrim hdig
    have hc : tfIsDigit c = true := hdig c (by simp)
    have hmain : parseInt (c :: cs) = parseIntLoop (c :: cs) 0 1 := by
      simp [parseInt, htrim, digit_ne_minus c hc]
    constructor
    · intro hle
      rw [hmain, parseIntLoop_pos_ok _ 0 hdig le_rfl (by simpa using hle)]
      simp
    · intro hgt
      rw [hmain]
      exact parseIntLoop_pos_ovf _ 0 hdig le_rfl (by norm_num) (by simpa using hgt)

/-- `Parse(StringSegment, int&)` on a minus sign followed by a pure digit
string: succeeds exactly when the negated value is at least `INT_MIN`. -/
theorem parseInt_minus_digits (ds : List Char) (hne : ds ≠ [])
    (hdig : ∀ c ∈ ds, tfIsDigit c = true) :
    (intVal ds ≤ 2147483648 → parseInt ('-' :: ds) = (-intVal ds, true)) ∧
    (2147483648 < intVal ds → (parseInt ('-' :: ds)).2 = false) := by
  have htrim : trimSeg ('-' :: ds) = '-' :: ds := by
    apply trimSeg_of_no_space
    intro c hcm
    rcases List.mem_cons.mp hcm with h | h
    · rw [h]; decide
    · exact digit_not_space c (hdig c h)
  have hmain : parseInt ('-' :: ds) = parseIntLoop ds 0 (-1) := by
    simp [parseInt, htrim, hne]
  constructor
  · intro hle
    rw [hmain, parseIntLoop_neg_ok _ 0 hdig le_rfl (by simpa using
      (by omega : -(2147483648:Int) ≤ -intVal ds))]
    simp
  · intro hgt
    rw [hmain]
    exact parseIntLoop_neg_ovf _ 0 hdig le_rfl (by norm_num) (by simpa using
      (by omega : -intVal ds < -(2147483648:Int)))

--============================================================
-- Encoding helpers (Encode overloads / IntToStrHelper)
--============================================================

/-- The digit-emission loop of `IntToStrHelper`, on the magnitude of the
value: each step writes the digit `sign * (value % 10)` (which equals
`|value| % 10` under C++ truncating division) into the next
less-significant position and continues with `value / 10` (equal to
`|value| / 10`).  The emitted digits are collected least-significant
first; the loop runs while the value is nonzero, and `value / 10 < value`
makes `fuel ≥ n` a sufficient explicit bound. -/
def intDigitsLSB : Nat → Nat → List Char
  | _, 0 => []
  | 0, _ + 1 => []
  | fuel + 1, n + 1 => Nat.digitChar ((n + 1) % 10) :: intDigitsLSB fuel ((n + 1) / 10)

/-- `Encode(int, std::string&)` via `IntToStrHelper` on a fresh output
string: `0` encodes as "0"; otherwise an optional minus sign followed by
the digits of the magnitude, most significant first (the helper fills the
buffer from the least-significant end backwards). -/
def encodeInt (v : Int) : List Char :=
  if v = 0 then ['0']
  else (if v < 0 then ['-'] else []) ++ (intDigitsLSB v.natAbs v.natAbs).reverse

/-- `Encode(bool, std::string&)`: `true` ↦ "yes", `false` ↦ "no". -/
def encodeBool (v : Bool) : List Char :=
  if v then "yes".toList else "no".toList

/-- `Encode(const std::string&, std::string&)`: wraps in double quotes. -/
def encodeStringQ (v : List Char) : List Char :=
  '"' :: v ++ ['"']

/-- Join with commas; this is the result of the source writing each value
followed by a comma and then overwriting the final comma with `]`. -/
def joinComma : List (List Char) → List Char
  | [] => []
  | [x] => x
  | x :: y :: xs => x ++ ',' :: joinComma (y :: xs)

/-- `Encode(const std::vector<int>&, std::string&)`: "[]" for an empty
vector, otherwise `[v1,v2,...,vn]` with no spaces. -/
def encodeIntList (l : List Int) : List Char :=
  if l = [] then ['[', ']']
  else '[' :: (joinComma (l.map encodeInt) ++ [']'])

theorem intVal_concat (ds : List Char) (c : Char) :
    intVal (ds ++ [c]) = intVal ds * 10 + dval c := by
  induction ds with
  | nil => simp [intVal]
  | cons a t ih =>
    rw [List.cons_append]
    rw [show intVal (a :: (t ++ [c])) = dval a * 10 ^ (t ++ [c]).length + intVal (t ++ [c])
      from rfl]
    rw [show intVal (a :: t) = dval a * 10 ^ t.length + intVal t from rfl]
    rw [ih, List.length_append]
    simp only [List.length_cons, List.length_nil, pow_add, pow_one, pow_zero]
    ring

theorem digitChar_spec (k : Nat) (h : k < 10) :
    dval (Nat.digitChar k) = (k : Int) ∧ tfIsDigit (Nat.digitChar k) = true := by
  interval_cases k <;> exact ⟨by decide, by decide⟩

theorem intDigitsLSB_spec : ∀ fuel n : Nat, n ≤ fuel →
    (∀ c ∈ intDigitsLSB fuel n, tfIsDigit c = true) ∧
    intVal ((intDigitsLSB fuel n).reverse) = (n : Int) ∧
    (0 < n → intDigitsLSB fuel n ≠ []) := by
  intro fuel
  induction fuel with
  | zero =>
    intro n hn
    have : n = 0 := Nat.le_zero.mp hn
    subst this
    refine ⟨by simp [intDigitsLSB], by simp [intDigitsLSB, intVal], by omega⟩
  | succ f ih =>
    intro n hn
    cases n with
    | zero =>
      refine ⟨by simp [intDigitsLSB], by simp [intDigitsLSB, intVal], by omega⟩
    | succ m =>
      have hdiv : (m + 1) / 10 ≤ f := by
        have := Nat.div_lt_self (Nat.succ_pos m) (by norm_num : 1 < 10)
        omega
      obtain ⟨ihdig, ihval, -⟩ := ih ((m + 1) / 10) hdiv
      have hmod : (m + 1) % 10 < 10 := Nat.mod_lt _ (by norm_num)
      obtain ⟨hdv, hdd⟩ := digitChar_spec _ hmod
      refine ⟨?_, ?_, ?_⟩
      · intro c hc
        simp only [intDigitsLSB, List.mem_cons] at hc
        rcases hc with h | h
        · rw [h]; exact hdd
        · exact ihdig c h
      · simp only [intDigitsLSB, List.reverse_cons, intVal_concat, ihval, hdv]
        have := Nat.div_add_mod (m + 1) 10
        push_cast
        omega
      · intro _
        simp [intDigitsLSB]

/-- Encoding a nonzero magnitude yields a nonempty pure digit string with
the right numeric value. -/
theorem encode_digits_spec (n : Nat) (h : 0 < n) :
    (∀ c ∈ (intDigitsLSB n n).reverse, tfIsDigit c = true) ∧
    intVal ((intDigitsLSB n n).reverse) = (n : Int) ∧
    (intDigitsLSB n n).reverse ≠ [] := by
  obtain ⟨h1, h2, h3⟩ := intDigitsLSB_spec n n le_rfl
  refine ⟨fun c hc => h1 c (List.mem_reverse.mp hc), h2, ?_⟩
  intro hrev
  exact (h3 h) (by simpa using congrArg List.reverse hrev)

/-- Integer encode/parse round-trip, for every value in the signed 32-bit
range. -/
theorem parseInt_encode (v : Int) (h1 : -2147483648 ≤ v) (h2 : v ≤ 2147483647) :
    parseInt (encodeInt v) = (v, true) := by
  rcases lt_trichotomy v 0 with hv | hv | hv
  · -- negative: "-" followed by the digits of |v|
    have hev : encodeInt v = '-' :: (intDigitsLSB v.natAbs v.natAbs).reverse := by
      unfold encodeInt
      rw [if_neg (by omega), if_pos hv]
      rfl
    have hpos : 0 < v.natAbs := by
      rw [Int.natAbs_pos]; omega
    obtain ⟨hdig, hval, hne⟩ := encode_digits_spec v.natAbs hpos
    have habs : (v.natAbs : Int) = -v := by omega
    rw [hev]
    have := (parseInt_minus_digits _ hne hdig).1 (by rw [hval, habs]; omega)
    rw [this, hval, habs]
    ring_nf
  · subst hv; decide
  · -- positive: just the digits of v
    have hev : encodeInt v = (intDigitsLSB v.natAbs v.natAbs).reverse := by
      unfold encodeInt
      rw [if_neg (by omega), if_neg (by omega)]
      rfl
    have hpos : 0 < v.natAbs := by
      rw [Int.natAbs_pos]; omega
    obtain ⟨hdig, hval, hne⟩ := encode_digits_spec v.natAbs hpos
    have habs : (v.natAbs : Int) = v := by omega
    rw [hev]
    have := (parseInt_digits _ hne hdig).1 (by rw [hval, habs]; omega)
    rw [this, hval, habs]

--============================================================
-- Characters appearing in integer encodings
--============================================================

theorem encodeInt_chars (v : Int) :
    ∀ c ∈ encodeInt v, c = '-' ∨ tfIsDigit c = true := by
  intro c hc
  unfold encodeInt at hc
  by_cases hv : v = 0
  · rw [if_pos hv] at hc
    simp only [List.mem_singleton] at hc
    right; rw [hc]; decide
  · rw [if_neg hv] at hc
    rcases List.mem_append.mp hc with h | h
    · left
      by_cases hneg : v < 0
      · rw [if_pos hneg] at h; simpa using h
      · rw [if_neg hneg] at h; simp at h
    · right
      have := (intDigitsLSB_spec v.natAbs v.natAbs le_rfl).1
      exact this c (List.mem_reverse.mp h)

theorem encodeInt_ne_nil (v : Int) : encodeInt v ≠ [] := by
  unfold encodeInt
  by_cases hv : v = 0
  · rw [if_pos hv]; simp
  · rw [if_neg hv]
    by_cases hneg : v < 0
    · rw [if_pos hneg]; simp
    · rw [if_neg hneg]
      simp only [List.nil_append, ne_eq, List.reverse_eq_nil_iff]
      have hpos : 0 < v.natAbs := Int.natAbs_pos.mpr hv
      exact (intDigitsLSB_spec v.natAbs v.natAbs le_rfl).2.2 hpos

theorem comma_not_in_encodeInt (v : Int) : ',' ∉ encodeInt v := by
  intro hmem
  rcases encodeInt_chars v ',' hmem with h | h
  · exact absurd h (by decide)
  · exact absurd h (by decide)

theorem encodeInt_not_space (v : Int) : ∀ c ∈ encodeInt v, spaceOrCR c = false := by
  intro c hc
  rcases encodeInt_chars v c hc with h | h
  · rw [h]; decide
  · exact digit_not_space c h

--============================================================
-- Reference splitter and element walk (specification view of the
-- vector<int> parse loop)
--============================================================

/-- Reference splitter: the comma-separated chunks of a char list (the
token decomposition the spec describes). -/
def splitOnComma : List Char → List (List Char)
  | [] => [[]]
  | c :: cs =>
    if c = ',' then [] :: splitOnComma cs
    else
      match splitOnComma cs with
      | [] => [[c]]
      | e :: es => (c :: e) :: es

/-- Specification-level element walk matching the source loop: an empty
element ends the walk successfully with the values accumulated so far; a
non-empty element that fails the integer parse fails the whole walk;
otherwise the value is appended and the walk continues. -/
def runElems : List (List Char) → List Int → List Int × Bool
  | [], acc => (acc, true)
  | e :: es, acc =>
    if e = [] then (acc, true)
    else
      match parseInt e with
      | (_, false) => (acc, false)
      | (v, true) => runElems es (acc ++ [v])

theorem splitOnComma_no_comma (s : List Char) (h : ',' ∉ s) :
    splitOnComma s = [s] := by
  induction s with
  | nil => rfl
  | cons c cs ih =>
    have hc : c ≠ ',' := fun hx => h (by simp [hx])
    have hcs : ',' ∉ cs := fun hx => h (by simp [hx])
    simp only [splitOnComma, if_neg hc, ih hcs]

theorem splitOnComma_cons_ne (a : Char) (cs : List Char) (ha : a ≠ ',') :
    splitOnComma (a :: cs) =
      match splitOnComma cs with
      | [] => [[a]]
      | e :: es => (a :: e) :: es := by
  simp [splitOnComma, ha]

theorem splitOnComma_append (A B : List Char) (hA : ',' ∉ A) :
    splitOnComma (A ++ ',' :: B) = A :: splitOnComma B := by
  induction A with
  | nil => simp [splitOnComma]
  | cons a A ih =>
    have ha : a ≠ ',' := fun hx => hA (by simp [hx])
    have hA2 : ',' ∉ A := fun hx => hA (by simp [hx])
    rw [List.cons_append, splitOnComma_cons_ne a _ ha, ih hA2]

/-- Decomposition at the first comma. -/
theorem mem_comma_decomp (s : List Char) (h : ',' ∈ s) :
    ∃ B, s.dropWhile (fun c => c != ',') = ',' :: B := by
  induction s with
  | nil => simp at h
  | cons c cs ih =>
    by_cases hc : c = ','
    · subst hc
      exact ⟨cs, by simp [List.dropWhile_cons]⟩
    · have hmem : ',' ∈ cs := by
        rcases List.mem_cons.mp h with h1 | h1
        · exact absurd h1.symm hc
        · exact h1
      obtain ⟨B, hB⟩ := ih hmem
      refine ⟨B, ?_⟩
      rw [List.dropWhile_cons, if_pos (by simp [hc]), hB]

theorem ssSplit_not_mem (d : Char) (s : List Char) (h1 : s ≠ []) (h2 : d ∉ s) :
    ssSplit d s = (true, s, []) := by
  unfold ssSplit
  rw [if_neg h1, if_neg h2]

theorem ssSplit_mem_decomp (s B : List Char) (hne : s ≠ []) (hmem : ',' ∈ s)
    (hB : s.dropWhile (fun c => c != ',') = ',' :: B) :
    ssSplit ',' s = (true, s.takeWhile (fun c => c != ','), B) := by
  unfold ssSplit
  rw [if_neg hne, if_pos hmem, hB]
  rfl

theorem parseSeqLoop_ne (fuel : Nat) (seg pre : List Char) (acc : List Int)
    (h : pre ≠ []) :
    parseSeqLoop fuel seg pre acc =
      match parseInt pre with
      | (_, false) => (acc, false)
      | (v, true) =>
        match ssSplit ',' seg with
        | (true, pre2, seg2) =>
          match fuel with
          | 0 => (acc ++ [v], false)
          | f + 1 => parseSeqLoop f seg2 pre2 (acc ++ [v])
        | (false, _, _) => (acc ++ [v], true) := by
  rw [parseSeqLoop, if_neg h]

/-- The element loop of the vector parse, started on the first `Split` of a
nonempty segment `s` and with fuel at least `s.length - 1`, computes the
reference element walk over the comma decomposition of `s`. -/
theorem seqLoop_splitOn : ∀ (fuel : Nat) (s : List Char) (acc : List Int),
    s ≠ [] → s.length ≤ fuel + 1 →
    parseSeqLoop fuel (ssSplit ',' s).2.2 (ssSplit ',' s).2.1 acc
      = runElems (splitOnComma s) acc := by
  intro fuel
  induction fuel with
  | zero =>
    intro s acc hne hlen
    -- s has length exactly 1
    cases s with
    | nil => exact absurd rfl hne
    | cons c cs =>
      cases cs with
      | cons d ds => simp at hlen
      | nil =>
        by_cases hc : c = ','
        · subst hc
          simp [ssSplit, parseSeqLoop, splitOnComma, runElems]
        · have hmem : ',' ∉ [c] := by
            simp only [List.mem_singleton]
            exact fun h => hc h.symm
          rw [ssSplit_not_mem ',' [c] (by simp) hmem]
          rw [splitOnComma_no_comma [c] hmem]
          rw [parseSeqLoop_ne 0 [] [c] acc (by simp)]
          rcases hp : parseInt [c] with ⟨v, ok⟩
          cases ok
          · simp only [runElems, if_neg (by simp : ¬([c] : List Char) = [])]
            rw [hp]
          · simp only [runElems, if_neg (by simp : ¬([c] : List Char) = [])]
            rw [hp]
            simp [ssSplit, runElems]
  | succ f ih =>
    intro s acc hne hlen
    by_cases hmem : ',' ∈ s
    · obtain ⟨B, hB⟩ := mem_comma_decomp s hmem
      obtain ⟨A, hA⟩ : ∃ A, s.takeWhile (fun c => c != ',') = A := ⟨_, rfl⟩
      have hs : s = A ++ ',' :: B := by
        conv_lhs => rw [← List.takeWhile_append_dropWhile (fun c => c != ',') s]
        rw [hB, hA]
      have hAnc : ',' ∉ A := by
        rw [← hA]
        intro hx
        have := List.mem_takeWhile_imp hx
        simp at this
      have hsplit : ssSplit ',' s = (true, A, B) := by
        rw [← hA]
        exact ssSplit_mem_decomp s B hne hmem hB
      have hSOC : splitOnComma s = A :: splitOnComma B := by
        rw [hs]; exact splitOnComma_append A B hAnc
      have hslen : s.length = A.length + 1 + B.length := by
        rw [hs]; simp [List.length_append]; omega
      rw [hsplit, hSOC]
      cases A with
      | nil =>
        show parseSeqLoop (f + 1) B [] acc = runElems ([] :: splitOnComma B) acc
        simp [parseSeqLoop, runElems]
      | cons a as =>
        show parseSeqLoop (f + 1) B (a :: as) acc
          = runElems ((a :: as) :: splitOnComma B) acc
        rw [parseSeqLoop_ne (f + 1) B (a :: as) acc (by simp)]
        rcases hp : parseInt (a :: as) with ⟨v, ok⟩
        cases ok
        · simp only [runElems, if_neg (by simp : ¬((a :: as) : List Char) = [])]
          rw [hp]
        · simp only [runElems, if_neg (by simp : ¬((a :: as) : List Char) = [])]
          rw [hp]
          by_cases hBe : B = []
          · subst hBe
            simp [ssSplit, splitOnComma, runElems]
          · have hBlen : B.length ≤ f + 1 := by
              simp only [List.length_cons] at hslen
              omega
            have hfound : (ssSplit ',' B).1 = true := by
              unfold ssSplit
              rw [if_neg hBe]
              by_cases h : ',' ∈ B
              · rw [if_pos h]
              · rw [if_neg h]
            rcases hq : ssSplit ',' B with ⟨found, pre2, seg2⟩
            rw [hq] at hfound
            simp only at hfound
            subst hfound
            have hrec := ih B (acc ++ [v]) hBe hBlen
            rw [hq] at hrec
            exact hrec
    · rw [ssSplit_not_mem ',' s hne hmem, splitOnComma_no_comma s hmem]
      show parseSeqLoop (f + 1) [] s acc = runElems [s] acc
      rw [parseSeqLoop_ne (f + 1) [] s acc hne]
      rcases hp : parseInt s with ⟨v, ok⟩
      cases ok
      · simp only [runElems, if_neg hne]
        rw [hp]
      · simp only [runElems, if_neg hne]
        rw [hp]
        simp [ssSplit, runElems]

--============================================================
-- The vector<int> parse: bracket structure and refinement
--============================================================

/-- Unfolding of `Parse(StringSegment, std::vector<int>&)` once the
surrounding bracket pair is known. -/
theorem parseIntList_bracket (s rest : List Char)
    (h1 : trimSeg s = '[' :: rest) (h2 : rest.getLast? = some ']') :
    parseIntList s =
      (if trimSeg rest.dropLast = [] then ([], true)
       else parseSeqLoop (trimSeg rest.dropLast).length
         (ssSplit ',' (trimSeg rest.dropLast)).2.2
         (ssSplit ',' (trimSeg rest.dropLast)).2.1 []) := by
  simp only [parseIntList, h1, h2]
  norm_num

/-- Specification form of the vector parse on a bracketed segment: it is the
reference element walk over the comma decomposition of the trimmed
interior. -/
theorem parseIntList_runElems (s rest : List Char)
    (h1 : trimSeg s = '[' :: rest) (h2 : rest.getLast? = some ']') :
    parseIntList s =
      (if trimSeg rest.dropLast = [] then ([], true)
       else runElems (splitOnComma (trimSeg rest.dropLast)) []) := by
  rw [parseIntList_bracket s rest h1 h2]
  by_cases hI : trimSeg rest.dropLast = []
  · rw [if_pos hI, if_pos hI]
  · rw [if_neg hI, if_neg hI]
    exact seqLoop_splitOn (trimSeg rest.dropLast).length (trimSeg rest.dropLast) [] hI
      (by omega)

/-- A successful vector parse implies the trimmed input is a bracket pair
around some interior. -/
theorem parseIntList_ok_bracket (s : List Char) (h : (parseIntList s).2 = true) :
    ∃ inner, trimSeg s = '[' :: (inner ++ [']']) := by
  cases hT : trimSeg s with
  | nil =>
    simp only [parseIntList, hT] at h
    exact absurd h (by decide)
  | cons first rest =>
    simp only [parseIntList, hT] at h
    by_cases hbr : first ≠ '[' ∨ rest.getLast?.getD '\x00' ≠ ']'
    · rw [if_pos hbr] at h; simp at h
    · push_neg at hbr
      obtain ⟨hf, hl⟩ := hbr
      cases hg : rest.getLast? with
      | none =>
        rw [hg] at hl
        exact absurd hl (by decide)
      | some c =>
        rw [hg] at hl
        simp only [Option.getD_some] at hl
        subst hl
        subst hf
        refine ⟨rest.dropLast, ?_⟩
        have hfull : rest.dropLast ++ [']'] = rest :=
          List.dropLast_append_getLast? _ (by rw [hg]; rfl)
        rw [hfull]

--============================================================
-- Encoding a vector and parsing it back
--============================================================

theorem joinComma_not_space (es : List Int) :
    ∀ c ∈ joinComma (es.map encodeInt), spaceOrCR c = false := by
  induction es with
  | nil => intro c hc; simp [joinComma] at hc
  | cons v vs ih =>
    intro c hc
    cases vs with
    | nil =>
      simp only [List.map_cons, List.map_nil, joinComma] at hc
      exact encodeInt_not_space v c hc
    | cons w ws =>
      simp only [List.map_cons, joinComma] at hc
      rcases List.mem_append.mp hc with h | h
      · exact encodeInt_not_space v c h
      · rcases List.mem_cons.mp h with h1 | h1
        · rw [h1]; decide
        · exact ih c (by simpa using h1)

theorem joinComma_ne_nil (es : List Int) (h : es ≠ []) :
    joinComma (es.map encodeInt) ≠ [] := by
  cases es with
  | nil => exact absurd rfl h
  | cons v vs =>
    cases vs with
    | nil =>
      simp only [List.map_cons, List.map_nil, joinComma]
      exact encodeInt_ne_nil v
    | cons w ws =>
      simp only [List.map_cons, joinComma]
      intro hx
      exact encodeInt_ne_nil v (List.append_eq_nil.mp hx).1

theorem splitOnComma_joinComma (es : List Int) (h : es ≠ []) :
    splitOnComma (joinComma (es.map encodeInt)) = es.map encodeInt := by
  induction es with
  | nil => exact absurd rfl h
  | cons v vs ih =>
    cases vs with
    | nil =>
      simp only [List.map_cons, List.map_nil, joinComma]
      exact splitOnComma_no_comma _ (comma_not_in_encodeInt v)
    | cons w ws =>
      simp only [List.map_cons, joinComma] at *
      rw [splitOnComma_append _ _ (comma_not_in_encodeInt v)]
      rw [ih (by simp)]

theorem runElems_map_encode (es : List Int) : ∀ acc : List Int,
    (∀ v ∈ es, -2147483648 ≤ v ∧ v ≤ 2147483647) →
    runElems (es.map encodeInt) acc = (acc ++ es, true) := by
  induction es with
  | nil => intro acc _; simp [runElems]
  | cons v vs ih =>
    intro acc hr
    have hv := hr v (by simp)
    simp only [List.map_cons, runElems, if_neg (encodeInt_ne_nil v)]
    rw [parseInt_encode v hv.1 hv.2]
    show runElems (vs.map encodeInt) (acc ++ [v]) = (acc ++ v :: vs, true)
    rw [ih (acc ++ [v]) (fun x hx => hr x (by simp [hx]))]
    simp

/-- Round-trip for integer sequences: parsing the encoding of any list of
in-range values returns the same list with success. -/
theorem parseIntList_encode (es : List Int)
    (hr : ∀ v ∈ es, -2147483648 ≤ v ∧ v ≤ 2147483647) :
    parseIntList (encodeIntList es) = (es, true) := by
  by_cases hes : es = []
  · subst hes; decide
  · have henc : encodeIntList es = '[' :: (joinComma (es.map encodeInt) ++ [']']) := by
      unfold encodeIntList
      rw [if_neg hes]
    have htrim : trimSeg (encodeIntList es) =
        '[' :: (joinComma (es.map encodeInt) ++ [']']) := by
      rw [henc]
      apply trimSeg_of_no_space
      intro c hc
      rcases List.mem_cons.mp hc with h | h
      · rw [h]; decide
      · rcases List.mem_append.mp h with h1 | h1
        · exact joinComma_not_space es c h1
        · rcases List.mem_singleton.mp h1 with rfl
          decide
    have hlast : (joinComma (es.map encodeInt) ++ [']']).getLast? = some ']' := by simp
    have hdrop : (joinComma (es.map encodeInt) ++ [']']).dropLast =
        joinComma (es.map encodeInt) := by simp
    rw [parseIntList_runElems _ _ htrim hlast]
    rw [hdrop]
    have hJtrim : trimSeg (joinComma (es.map encodeInt)) = joinComma (es.map encodeInt) :=
      trimSeg_of_no_space _ (joinComma_not_space es)
    rw [hJtrim, if_neg (joinComma_ne_nil es hes), splitOnComma_joinComma es hes]
    rw [runElems_map_encode es [] hr]
    simp

--============================================================
-- Field adapters (FieldAdapter<T,C>::FromString = Parse into the bound
-- field through a reference)
--============================================================

/-- A record with one field of each scalar kind the codec supports, used to
instantiate `FieldAdapter<T,C>` for each overload. -/
structure TRec where
  i : Int
  b : Bool
  s : List Char
  q : List Int
deriving DecidableEq

/-- `FieldAdapter<TRec,int>::FromString`: `Parse(s, var.*field_pointer)`.
The integer parse always writes through the reference (it starts with
`result = 0` and accumulates), so the bound field receives the parser's
final value even on failure. -/
def fromStringI (r : TRec) (text : List Char) : TRec × Bool :=
  let p := parseInt text
  ({ r with i := p.1 }, p.2)

/-- `FieldAdapter<TRec,bool>::FromString`; the boolean parse writes the
reference only on success. -/
def fromStringB (r : TRec) (text : List Char) : TRec × Bool :=
  let p := parseBool r.b text
  ({ r with b := p.1 }, p.2)

/-- `FieldAdapter<TRec,std::string>::FromString`; the string parse writes
the reference only on success. -/
def fromStringS (r : TRec) (text : List Char) : TRec × Bool :=
  let p := parseStringQ r.s text
  ({ r with s := p.1 }, p.2)

/-- `FieldAdapter<TRec,std::vector<int>>::FromString`; the vector parse
clears the reference first and pushes elements as it goes. -/
def fromStringQ (r : TRec) (text : List Char) : TRec × Bool :=
  let p := parseIntList text
  ({ r with q := p.1 }, p.2)

theorem parseBool_fail (old : Bool) (s : List Char)
    (h : (parseBool old s).2 = false) : (parseBool old s).1 = old := by
  unfold parseBool at *
  by_cases h1 : (ssMatch ("true".toList) (trimSeg s) || ssMatch ("yes".toList) (trimSeg s)) = true
  · rw [if_pos h1] at h; simp at h
  · rw [if_neg h1] at h ⊢
    by_cases h2 : (ssMatch ("false".toList) (trimSeg s) || ssMatch ("no".toList) (trimSeg s)) = true
    · rw [if_pos h2] at h; simp at h
    · rw [if_neg h2]

theorem parseStringQ_fail (old : List Char) (s : List Char)
    (h : (parseStringQ old s).2 = false) : (parseStringQ old s).1 = old := by
  unfold parseStringQ at *
  by_cases h1 : (trimSeg s).length < 2
  · rw [if_pos h1] at h ⊢
  · rw [if_neg h1] at h ⊢
    by_cases h2 : (trimSeg s).head? ≠ some '"' ∨ (trimSeg s).getLast? ≠ some '"'
    · rw [if_pos h2] at h ⊢
    · rw [if_neg h2] at h; simp at h

--============================================================
-- Table adapter (AbstractTableAdapter<T>::AddNamedColumn)
--============================================================

/-- `StringToLowerCase`. -/
def toLowerStr (l : List Char) : List Char := l.map tfToLower

/-- Lookup in the name→index map (modelling `std::unordered_map::find` on
an association list with unique keys). -/
def lookupAssoc : List (List Char × Nat) → List Char → Option Nat
  | [], _ => none
  | (k, v) :: rest, key => if k = key then some v else lookupAssoc rest key

/-- The column-registration state of `AbstractTableAdapter<T>`: the ordered
column list and the case-folded name→index map.  The field adapter handles
are an opaque payload `F`. -/
structure TableCols (F : Type) where
  name2id : List (List Char × Nat)
  columnSpecs : List (List Char × F)

/-- `AddNamedColumn(name, field)`: folds the name, fails on a collision,
otherwise appends the column and indexes it (a null name is "" in the
source; the model takes the name directly). -/
def addNamedColumn {F : Type} (t : TableCols F) (name : List Char) (fld : F) :
    TableCols F × Bool :=
  let key := toLowerStr name
  match lookupAssoc t.name2id key with
  | some _ => (t, false)
  | none =>
    ({ name2id := t.name2id ++ [(key, t.columnSpecs.length)],
       columnSpecs := t.columnSpecs ++ [(name, fld)] }, true)

theorem lookupAssoc_append_self (xs : List (List Char × Nat)) (k : List Char) (v : Nat)
    (h : lookupAssoc xs k = none) : lookupAssoc (xs ++ [(k, v)]) k = some v := by
  induction xs with
  | nil => simp [lookupAssoc]
  | cons x rest ih =>
    rcases x with ⟨xk, xv⟩
    by_cases hx : xk = k
    · rw [lookupAssoc, if_pos hx] at h; simp at h
    · rw [lookupAssoc, if_neg hx] at h
      rw [List.cons_append, lookupAssoc, if_neg hx]
      exact ih h

--============================================================
-- BasicYamlParser::ParseLine
--============================================================

/-- Parser state visible to `ParseLine`: the header/data section flag, the
header record (one fixed row), and the rows of the growable data table.
Both adapters are taken as bound (the constructor asserts this and asserts
the data table is growable, whose `NewRow` always succeeds). -/
structure YState (η ρ : Type) where
  isHeaderSection : Bool
  header : η
  rows : List ρ
deriving DecidableEq

/-- The header table, abstracted to its name-based `SetValue` on the single
row: returns the (possibly partially clobbered) record and the ok flag
(false on an unknown column or a failed field parse). -/
structure HeaderTab (η : Type) where
  setValue : η → List Char → List Char → η × Bool

/-- The growable data table, abstracted to the default-initialized record a
`NewRow` appends and its name-based `SetValue` on one row. -/
structure RowTab (ρ : Type) where
  newRow : ρ
  setValue : ρ → List Char → List Char → ρ × Bool

/-- How a line fails: `cond m` is a `CheckCondition` failure (sets `isOK`
false, raises in strict mode); `thrown m` is a `ThrowError` call whose
`TestFrameworkError` propagates to `ParseFile`. -/
inductive LineFail where
  | cond (msg : List Char)
  | thrown (msg : List Char)
deriving DecidableEq

def quoteChar : Char := Char.ofNat 39

def msgKeyOrValueEmpty : List Char := "Key or value is empty.".toList

def msgInvalidHeaderEntry : List Char := "Invalid entry in the header section.".toList

def msgNoActiveRow : List Char := "Data section has no active row.".toList

def msgCannotOpen : List Char := "Cannot open input file.".toList

def msgCannotParseHeader (key sv : List Char) : List Char :=
  ("Cannot parse header key ".toList) ++ [quoteChar] ++ key ++ [quoteChar] ++
  (" with value ".toList) ++ [quoteChar] ++ sv ++ [quoteChar]

def msgCannotParseData (key sv : List Char) : List Char :=
  ("Cannot parse data key ".toList) ++ [quoteChar] ++ key ++ [quoteChar] ++
  (" with value ".toList) ++ [quoteChar] ++ sv ++ [quoteChar]

def dataLit : List Char := "data:".toList

/-- The `key: value` tail of `BasicYamlParser::ParseLine`: split at the
first `:`, trim both parts, check non-emptiness, and apply the pair to the
header row or to the last data row. -/
def keyValueStep {η ρ : Type} (hd : HeaderTab η) (tb : RowTab ρ)
    (st : YState η ρ) (s : List Char) : YState η ρ × Option LineFail :=
  let r := ssSplit ':' s
  let key := trimSeg r.2.1
  let sv := trimSeg r.2.2
  if sv = [] ∨ key = [] then (st, some (LineFail.cond msgKeyOrValueEmpty))
  else if st.isHeaderSection then
    let h := hd.setValue st.header key sv
    if h.2 then ({ st with header := h.1 }, none)
    else ({ st with header := h.1 },
      some (LineFail.thrown (msgCannotParseHeader key sv)))
  else
    match st.rows.getLast? with
    | none => (st, some (LineFail.cond msgNoActiveRow))
    | some rec0 =>
      let r2 := tb.setValue rec0 key sv
      let st2 := { st with rows := st.rows.dropLast ++ [r2.1] }
      if r2.2 then (st2, none)
      else (st2, some (LineFail.thrown (msgCannotParseData key sv)))

/-- `BasicYamlParser::ParseLine`: trim; skip blank and `#` lines; a
case-insensitive `data:` switches to the data section; a `-` line is only
legal in the data section and appends a default row before the optional
`key: value` remainder; otherwise the line is a `key: value` pair. -/
def parseLineY {η ρ : Type} (hd : HeaderTab η) (tb : RowTab ρ)
    (st : YState η ρ) (s0 : List Char) : YState η ρ × Option LineFail :=
  match trimSeg s0 with
  | [] => (st, none)
  | first :: rest =>
    if first = '#' then (st, none)
    else if ssMatch dataLit (first :: rest) then
      ({ st with isHeaderSection := false }, none)
    else if first = '-' then
      if st.isHeaderSection then (st, some (LineFail.cond msgInvalidHeaderEntry))
      else
        let st1 := { st with rows := st.rows ++ [tb.newRow] }
        let s1 := trimSeg rest
        if s1 = [] then (st1, none)
        else keyValueStep hd tb st1 s1
    else keyValueStep hd tb st (first :: rest)

/-- Whether, from state `st`, the trimmed line `s` is one of the structural
violations: a `-` line in the header section, a split with an empty key or
value, or a data-section `key: value` line with no row appended yet. -/
def emptyKV (s : List Char) : Bool :=
  (trimSeg (ssSplit ':' s).2.2).isEmpty || (trimSeg (ssSplit ':' s).2.1).isEmpty

def structuralViolation {η ρ : Type} (st : YState η ρ) (s : List Char) : Bool :=
  match trimSeg s with
  | [] => false
  | first :: rest =>
    if first = '#' then false
    else if ssMatch dataLit (first :: rest) then false
    else if first = '-' then
      if st.isHeaderSection then true
      else !(trimSeg rest).isEmpty && emptyKV (trimSeg rest)
    else emptyKV (first :: rest) || (!st.isHeaderSection && st.rows.isEmpty)

--============================================================
-- AbstractLineParser::ParseFile
--============================================================

/-- The `ParseError` raised by `ParseFile`/`CheckCondition` (message, file,
1-based line; line 0 for errors before reading any line). -/
structure PError where
  msg : List Char
  file : List Char
  line : Nat
deriving DecidableEq

/-- `ParseError::Compose`: the file name (with `:`) when nonempty, the line
number (with `: `) when nonzero, then the message. -/
def composeMsg (msg file : List Char) (line : Nat) : List Char :=
  (if file = [] then [] else file ++ [':']) ++
  (if line = 0 then [] else (toString line).toList ++ [':', ' ']) ++ msg

/-- The `getline` loop of `ParseFile`.  On a `cond` failure the strict mode
rethrows the `ParseError` thrown by `CheckCondition` wrapped once more by
the catch block (so its file and line are prepended twice); on a `thrown`
failure the `TestFrameworkError` is wrapped once.  In lenient mode either
failure makes the parse return with `isOK` false, leaving the remaining
lines unread.  `n` is the number of lines already consumed. -/
def runLines {σ : Type} (parseLine : σ → List Char → σ × Option LineFail)
    (file : List Char) (strict : Bool) :
    List (List Char) → Nat → σ → Except PError (σ × Bool)
  | [], _, s => Except.ok (s, true)
  | l :: ls, n, s =>
    match parseLine s l with
    | (s2, none) => runLines parseLine file strict ls (n + 1) s2
    | (s2, some (LineFail.cond m)) =>
      if strict then
        Except.error ⟨composeMsg (composeMsg m file (n + 1)) file (n + 1), file, n + 1⟩
      else Except.ok (s2, false)
    | (s2, some (LineFail.thrown m)) =>
      if strict then Except.error ⟨composeMsg m file (n + 1), file, n + 1⟩
      else Except.ok (s2, false)

/-- `AbstractLineParser::ParseFile`: `contents = none` models an unopenable
file (checked at line number 0, before `PreParse`); otherwise `PreParse`
runs (it never fails for `BasicYamlParser`) and the lines are consumed in
order.  `PostParse` is a no-op.  The result is the raised error, or the
final state with the final `IsOK()` value. -/
def parseFileModel {σ : Type} (parseLine : σ → List Char → σ × Option LineFail)
    (preParse : σ → σ) (file : List Char)
    (contents : Option (List (List Char))) (strict : Bool) (s0 : σ) :
    Except PError (σ × Bool) :=
  match contents with
  | none =>
    if strict then Except.error ⟨composeMsg msgCannotOpen file 0, file, 0⟩
    else Except.ok (s0, false)
  | some ls => runLines parseLine file strict ls 0 (preParse s0)

theorem composeMsg_shape (m f : List Char) (L : Nat) (hf : f ≠ []) (hL : L ≠ 0) :
    composeMsg m f L = f ++ ':' :: ((toString L).toList ++ ':' :: ' ' :: m) := by
  unfold composeMsg
  rw [if_neg hf, if_neg hL]
  simp

theorem runLines_error_info {σ : Type} (pl : σ → List Char → σ × Option LineFail)
    (f : List Char) : ∀ (ls : List (List Char)) (n : Nat) (s : σ) (e : PError),
    runLines pl f true ls n s = Except.error e →
    e.file = f ∧ n + 1 ≤ e.line ∧ e.line ≤ n + ls.length ∧
    (f ≠ [] → ∃ r, e.msg = f ++ ':' :: ((toString e.line).toList ++ ':' :: ' ' :: r)) := by
  intro ls
  induction ls with
  | nil => intro n s e h; simp [runLines] at h
  | cons l ls ih =>
    intro n s e h
    rw [runLines] at h
    rcases hp : pl s l with ⟨s2, of⟩
    rw [hp] at h
    match of with
    | none =>
      obtain ⟨h1, h2, h3, h4⟩ := ih (n + 1) s2 e h
      refine ⟨h1, by omega, by simp only [List.length_cons]; omega, h4⟩
    | some (LineFail.cond m) =>
      simp only [if_pos rfl, reduceIte] at h
      have he : e = ⟨composeMsg (composeMsg m f (n + 1)) f (n + 1), f, n + 1⟩ := by
        exact (Except.error.injEq _ _ ▸ h).symm
      subst he
      refine ⟨rfl, le_rfl, ?_, ?_⟩
      · show n + 1 ≤ n + (l :: ls).length
        simp only [List.length_cons]
        omega
      · intro hf
        exact ⟨composeMsg m f (n + 1), composeMsg_shape _ f (n + 1) hf (by omega)⟩
    | some (LineFail.thrown m) =>
      simp only [if_pos rfl, reduceIte] at h
      have he : e = ⟨composeMsg m f (n + 1), f, n + 1⟩ := by
        exact (Except.error.injEq _ _ ▸ h).symm
      subst he
      refine ⟨rfl, le_rfl, ?_, ?_⟩
      · show n + 1 ≤ n + (l :: ls).length
        simp only [List.length_cons]
        omega
      · intro hf
        exact ⟨m, composeMsg_shape m f (n + 1) hf (by omega)⟩

theorem runLines_lenient_no_error {σ : Type} (pl : σ → List Char → σ × Option LineFail)
    (f : List Char) : ∀ (ls : List (List Char)) (n : Nat) (s : σ) (e : PError),
    runLines pl f false ls n s ≠ Except.error e := by
  intro ls
  induction ls with
  | nil => intro n s e h; simp [runLines] at h
  | cons l ls ih =>
    intro n s e h
    rw [runLines] at h
    rcases hp : pl s l with ⟨s2, of⟩
    rw [hp] at h
    match of with
    | none => exact ih (n + 1) s2 e h
    | some (LineFail.cond m) => simp at h
    | some (LineFail.thrown m) => simp at h

theorem runLines_strict_ok {σ : Type} (pl : σ → List Char → σ × Option LineFail)
    (f : List Char) : ∀ (ls : List (List Char)) (n : Nat) (s s2 : σ) (b : Bool),
    runLines pl f true ls n s = Except.ok (s2, b) →
    b = true ∧ runLines pl f false ls n s = Except.ok (s2, true) := by
  intro ls
  induction ls with
  | nil =>
    intro n s s2 b h
    rw [runLines] at h
    have := (Except.ok.injEq _ _ ▸ h)
    obtain ⟨h1, h2⟩ := Prod.mk.injEq .. ▸ this
    subst h1; subst h2
    exact ⟨rfl, rfl⟩
  | cons l ls ih =>
    intro n s s2 b h
    rw [runLines] at h ⊢
    rcases hp : pl s l with ⟨sx, of⟩
    rw [hp] at h
    match of, h with
    | none, h => exact ih (n + 1) sx s2 b h
    | some (LineFail.cond m), h => simp at h
    | some (LineFail.thrown m), h => simp at h

theorem runLines_lenient_fail {σ : Type} (pl : σ → List Char → σ × Option LineFail)
    (f : List Char) : ∀ (ls : List (List Char)) (n : Nat) (s s2 : σ),
    runLines pl f false ls n s = Except.ok (s2, false) →
    (∃ e, runLines pl f true ls n s = Except.error e) ∧
    (∀ extra, runLines pl f false (ls ++ extra) n s = Except.ok (s2, false)) := by
  intro ls
  induction ls with
  | nil =>
    intro n s s2 h
    rw [runLines] at h
    have := (Except.ok.injEq _ _ ▸ h)
    obtain ⟨-, h2⟩ := Prod.mk.injEq .. ▸ this
    exact absurd h2 (by simp)
  | cons l ls ih =>
    intro n s s2 h
    rw [runLines] at h
    rcases hp : pl s l with ⟨sx, of⟩
    rw [hp] at h
    match of, hp, h with
    | none, hp, h =>
      obtain ⟨h1, h2⟩ := ih (n + 1) sx s2 h
      constructor
      · obtain ⟨e, he⟩ := h1
        exact ⟨e, by rw [runLines, hp]; exact he⟩
      · intro extra
        rw [List.cons_append, runLines, hp]
        exact h2 extra
    | some (LineFail.cond m), hp, h =>
      simp only [reduceIte] at h
      have := (Except.ok.injEq _ _ ▸ h)
      obtain ⟨h1, -⟩ := Prod.mk.injEq .. ▸ this
      subst h1
      constructor
      · refine ⟨⟨composeMsg (composeMsg m f (n + 1)) f (n + 1), f, n + 1⟩, ?_⟩
        rw [runLines, hp]
        rfl
      · intro extra
        rw [List.cons_append, runLines, hp]
        rfl
    | some (LineFail.thrown m), hp, h =>
      simp only [reduceIte] at h
      have := (Except.ok.injEq _ _ ▸ h)
      obtain ⟨h1, -⟩ := Prod.mk.injEq .. ▸ this
      subst h1
      constructor
      · refine ⟨⟨composeMsg m f (n + 1), f, n + 1⟩, ?_⟩
        rw [runLines, hp]
        rfl
      · intro extra
        rw [List.cons_append, runLines, hp]
        rfl

/-- A trivial concrete header table over `Nat`. -/
def hdN : HeaderTab Nat := ⟨fun h _ _ => (h, true)⟩

/-- A trivial concrete growable table over `Nat`. -/
def tbN : RowTab Nat := ⟨0, fun r _ _ => (r, true)⟩

/-- A concrete line parser over `Nat` state: the line "bad" fails as a
condition failure, any other line increments the state. -/
def plW : Nat → List Char → Nat × Option LineFail :=
  fun n l =>
    if l = "bad".toList then (n, some (LineFail.cond ("boom".toList)))
    else (n + 1, none)

--============================================================
-- Behaviour of keyValueStep on structural violations
--============================================================

theorem keyValueStep_emptyKV {η ρ : Type} (hd : HeaderTab η) (tb : RowTab ρ)
    (st : YState η ρ) (s : List Char) (h : emptyKV s = true) :
    keyValueStep hd tb st s = (st, some (LineFail.cond msgKeyOrValueEmpty)) := by
  unfold emptyKV at h
  unfold keyValueStep
  rw [if_pos ?_]
  rcases Bool.or_eq_true _ _ ▸ h with h1 | h1
  · exact Or.inl (List.isEmpty_iff.mp h1)
  · exact Or.inr (List.isEmpty_iff.mp h1)

theorem keyValueStep_noRow {η ρ : Type} (hd : HeaderTab η) (tb : RowTab ρ)
    (st : YState η ρ) (s : List Char) (h1 : emptyKV s = false)
    (h2 : st.isHeaderSection = false) (h3 : st.rows = []) :
    keyValueStep hd tb st s = (st, some (LineFail.cond msgNoActiveRow)) := by
  unfold emptyKV at h1
  unfold keyValueStep
  rw [if_neg ?_, h2]
  · simp only [Bool.false_eq_true, if_false, h3, List.getLast?_nil]
  · rw [Bool.or_eq_false_iff] at h1
    rintro (hx | hx)
    · rw [hx] at h1
      exact absurd h1.1 (by simp)
    · rw [hx] at h1
      exact absurd h1.2 (by simp)

--============================================================
-- Claim theorems
--============================================================

/-- C1 counterexample: parsing `"x"` into an integer field fails, yet the
record is modified — the integer parse zeroes `result` through the
reference before failing, so the bound field `i` drops from 5 to 0. -/
theorem claim1_counterexample :
    (fromStringI ⟨5, true, [], []⟩ ("x".toList)).2 = false ∧
    (fromStringI ⟨5, true, [], []⟩ ("x".toList)).1 ≠
      (⟨5, true, [], []⟩ : TRec) := by
  decide

/-- C1 (amended): when `FieldAdapter::FromString` returns false, every
field other than the bound field is unchanged; the boolean and string
adapters also leave the bound field unchanged, but the integer and
integer-sequence adapters may overwrite the bound field with the codec's
partial result. -/
theorem claim1_amended_frame : ∀ (r : TRec) (text : List Char),
    ((fromStringI r text).2 = false →
      (fromStringI r text).1.b = r.b ∧ (fromStringI r text).1.s = r.s ∧
      (fromStringI r text).1.q = r.q) ∧
    ((fromStringB r text).2 = false → (fromStringB r text).1 = r) ∧
    ((fromStringS r text).2 = false → (fromStringS r text).1 = r) ∧
    ((fromStringQ r text).2 = false →
      (fromStringQ r text).1.i = r.i ∧ (fromStringQ r text).1.b = r.b ∧
      (fromStringQ r text).1.s = r.s) := by
  intro r text
  refine ⟨fun _ => ⟨rfl, rfl, rfl⟩, ?_, ?_, fun _ => ⟨rfl, rfl, rfl⟩⟩
  · intro h
    have hb := parseBool_fail r.b text h
    show ({ r with b := (parseBool r.b text).1 } : TRec) = r
    rw [hb]
  · intro h
    have hs := parseStringQ_fail r.s text h
    show ({ r with s := (parseStringQ r.s text).1 } : TRec) = r
    rw [hs]

/-- C1 (amended) witness: on record (5, true, "a", [1]) and text `"x"` all
four adapters fail and the amended frame properties hold. -/
theorem claim1_amended_frame_witness :
    ((fromStringI ⟨5, true, ['a'], [1]⟩ ("x".toList)).2 = false ∧
      (fromStringB ⟨5, true, ['a'], [1]⟩ ("x".toList)).2 = false ∧
      (fromStringS ⟨5, true, ['a'], [1]⟩ ("x".toList)).2 = false ∧
      (fromStringQ ⟨5, true, ['a'], [1]⟩ ("x".toList)).2 = false) ∧
    (fromStringI ⟨5, true, ['a'], [1]⟩ ("x".toList)).1.b = true ∧
    (fromStringB ⟨5, true, ['a'], [1]⟩ ("x".toList)).1 = ⟨5, true, ['a'], [1]⟩ ∧
    (fromStringS ⟨5, true, ['a'], [1]⟩ ("x".toList)).1 = ⟨5, true, ['a'], [1]⟩ ∧
    (fromStringQ ⟨5, true, ['a'], [1]⟩ ("x".toList)).1.i = 5 := by
  have h := claim1_amended_frame ⟨5, true, ['a'], [1]⟩ ("x".toList)
  refine ⟨⟨by decide, by decide, by decide, by decide⟩, ?_, ?_, ?_, ?_⟩
  · exact (h.1 (by decide)).1
  · exact h.2.1 (by decide)
  · exact h.2.2.1 (by decide)
  · exact (h.2.2.2 (by decide)).1

/-- C2: on a digit string (optionally preceded by a minus sign) the integer
parse succeeds exactly on the signed 32-bit range, returning the numeric
value, and fails — rather than wrapping — beyond it; in particular
"2147483648" and "-2147483649" fail while "2147483647" and "-2147483648"
succeed. -/
theorem claim2_int_range :
    (∀ ds : List Char, ds ≠ [] → (∀ c ∈ ds, tfIsDigit c = true) →
      ((2147483647 < intVal ds → (parseInt ds).2 = false) ∧
       (intVal ds ≤ 2147483647 → parseInt ds = (intVal ds, true)) ∧
       (2147483648 < intVal ds → (parseInt ('-' :: ds)).2 = false) ∧
       (intVal ds ≤ 2147483648 → parseInt ('-' :: ds) = (-intVal ds, true)))) ∧
    (parseInt ("2147483648".toList)).2 = false ∧
    (parseInt ("-2147483649".toList)).2 = false ∧
    parseInt ("2147483647".toList) = (2147483647, true) ∧
    parseInt ("-2147483648".toList) = (-2147483648, true) := by
  constructor
  · intro ds hne hdig
    obtain ⟨hok, hovf⟩ := parseInt_digits ds hne hdig
    obtain ⟨hnok, hnovf⟩ := parseInt_minus_digits ds hne hdig
    exact ⟨hovf, hok, hnovf, hnok⟩
  · exact ⟨by decide, by decide, by decide, by decide⟩

/-- C2 witness: the general statement applied to the ten-digit string
"9999999999" (overflow) and to "12" (in range). -/
theorem claim2_int_range_witness :
    ("9999999999".toList ≠ ([] : List Char)) ∧
    (∀ c ∈ "9999999999".toList, tfIsDigit c = true) ∧
    (parseInt ("9999999999".toList)).2 = false ∧
    parseInt ("12".toList) = (intVal ("12".toList), true) := by
  refine ⟨by decide, by decide, ?_, ?_⟩
  · exact (claim2_int_range.1 ("9999999999".toList) (by decide) (by decide)).1 (by decide)
  · exact (claim2_int_range.1 ("12".toList) (by decide) (by decide)).2.1 (by decide)

/-- C3: for every signed 32-bit value, parsing the integer encoding
round-trips to the same value with success. -/
theorem claim3_int_roundtrip (v : Int) (h1 : -2147483648 ≤ v)
    (h2 : v ≤ 2147483647) : parseInt (encodeInt v) = (v, true) :=
  parseInt_encode v h1 h2

/-- C3 witness at 0, INT_MAX and INT_MIN. -/
theorem claim3_int_roundtrip_witness :
    parseInt (encodeInt 0) = (0, true) ∧
    parseInt (encodeInt 2147483647) = (2147483647, true) ∧
    parseInt (encodeInt (-2147483648)) = (-2147483648, true) :=
  ⟨claim3_int_roundtrip 0 (by norm_num) (by norm_num),
   claim3_int_roundtrip 2147483647 (by norm_num) (by norm_num),
   claim3_int_roundtrip (-2147483648) (by norm_num) (by norm_num)⟩

/-- C4: for every sequence of 32-bit values (including the empty one),
parsing the encoding returns the same sequence, in order, with success; the
empty sequence encodes as the two characters "[]". -/
theorem claim4_seq_roundtrip :
    (∀ es : List Int, (∀ v ∈ es, -2147483648 ≤ v ∧ v ≤ 2147483647) →
      parseIntList (encodeIntList es) = (es, true)) ∧
    encodeIntList [] = "[]".toList := by
  exact ⟨parseIntList_encode, by decide⟩

/-- C4 witness on the sequence [1, -2, 0, 2147483647]. -/
theorem claim4_seq_roundtrip_witness :
    (∀ v ∈ ([1, -2, 0, 2147483647] : List Int),
      -2147483648 ≤ v ∧ v ≤ 2147483647) ∧
    parseIntList (encodeIntList [1, -2, 0, 2147483647]) =
      ([1, -2, 0, 2147483647], true) :=
  ⟨by decide, claim4_seq_roundtrip.1 [1, -2, 0, 2147483647] (by decide)⟩

/-- C5 counterexample: an empty element does NOT fail the whole parse —
"[,1]" parses successfully as the empty sequence, "[1,]" as [1], and
"[1,,2]" as the shortened sequence [1]. -/
theorem claim5_counterexample :
    parseIntList ("[,1]".toList) = ([], true) ∧
    parseIntList ("[1,]".toList) = ([1], true) ∧
    parseIntList ("[1,,2]".toList) = ([1], true) := by
  exact ⟨by decide, by decide, by decide⟩

/-- C5 (amended): the vector parse requires a surrounding bracket pair (a
successful parse implies the trimmed input is `[` … `]`); walking the
comma-separated elements of the trimmed interior in order, a non-empty
element that fails the integer parse fails the whole parse, while an empty
element terminates the walk successfully with only the elements
accumulated before it (`runElems`). -/
theorem claim5_amended_seq_parse :
    (∀ s : List Char, (parseIntList s).2 = true →
      ∃ inner, trimSeg s = '[' :: (inner ++ [']'])) ∧
    (∀ s rest : List Char, trimSeg s = '[' :: rest → rest.getLast? = some ']' →
      parseIntList s =
        (if trimSeg rest.dropLast = [] then ([], true)
         else runElems (splitOnComma (trimSeg rest.dropLast)) [])) :=
  ⟨parseIntList_ok_bracket, fun s rest h1 h2 => parseIntList_runElems s rest h1 h2⟩

/-- C5 (amended) witness on "[1,]". -/
theorem claim5_amended_seq_parse_witness :
    (trimSeg ("[1,]".toList) = '[' :: ("1,]".toList)) ∧
    (("1,]".toList).getLast? = some ']') ∧
    parseIntList ("[1,]".toList) =
      (if trimSeg (("1,]".toList)).dropLast = [] then (([] : List Int), true)
       else runElems (splitOnComma (trimSeg (("1,]".toList)).dropLast)) []) ∧
    (∃ inner, trimSeg ("[1,]".toList) = '[' :: (inner ++ [']'])) := by
  refine ⟨by decide, by decide, ?_, ?_⟩
  · exact claim5_amended_seq_parse.2 ("[1,]".toList) ("1,]".toList) (by decide) (by decide)
  · exact claim5_amended_seq_parse.1 ("[1,]".toList) (by decide)

/-- C10: every scalar parse first trims its input (spaces and `\r`), so
parsing any text gives the same (value, ok) result as parsing the trimmed
text; in particular " 42 " parses as 42. -/
theorem claim10_parse_trims :
    (∀ s : List Char,
      parseInt (trimSeg s) = parseInt s ∧
      (∀ old : Bool, parseBool old (trimSeg s) = parseBool old s) ∧
      (∀ old : List Char, parseStringQ old (trimSeg s) = parseStringQ old s) ∧
      parseIntList (trimSeg s) = parseIntList s) ∧
    parseInt (" 42 ".toList) = (42, true) := by
  constructor
  · intro s
    refine ⟨?_, ?_, ?_, ?_⟩
    · unfold parseInt
      rw [trimSeg_idem]
    · intro old
      unfold parseBool
      rw [trimSeg_idem]
    · intro old
      unfold parseStringQ
      rw [trimSeg_idem]
    · unfold parseIntList
      rw [trimSeg_idem]
  · decide

/-- C8: if a name is not yet registered, the first `AddNamedColumn` with it
succeeds, and a second call with any name equal after case folding fails
and leaves the column list and the name→index map exactly as after the
first registration. -/
theorem claim8_column_collision (F : Type) (t : TableCols F) (n1 n2 : List Char)
    (f1 f2 : F) (hfold : toLowerStr n1 = toLowerStr n2)
    (hfree : lookupAssoc t.name2id (toLowerStr n1) = none) :
    (addNamedColumn t n1 f1).2 = true ∧
    addNamedColumn (addNamedColumn t n1 f1).1 n2 f2 =
      ((addNamedColumn t n1 f1).1, false) := by
  have h1 : addNamedColumn t n1 f1 =
      ({ name2id := t.name2id ++ [(toLowerStr n1, t.columnSpecs.length)],
         columnSpecs := t.columnSpecs ++ [(n1, f1)] }, true) := by
    simp only [addNamedColumn, hfree]
  have h2 : lookupAssoc (t.name2id ++ [(toLowerStr n1, t.columnSpecs.length)])
      (toLowerStr n2) = some t.columnSpecs.length := by
    rw [← hfold]
    exact lookupAssoc_append_self _ _ _ hfree
  constructor
  · rw [h1]
  · rw [h1]
    simp only [addNamedColumn, h2]

/-- C8 witness: registering "Left" then "LEFT" on an empty table. -/
theorem claim8_column_collision_witness :
    (toLowerStr ("Left".toList) = toLowerStr ("LEFT".toList)) ∧
    (lookupAssoc (TableCols.name2id (⟨[], []⟩ : TableCols Nat))
      (toLowerStr ("Left".toList)) = none) ∧
    ((addNamedColumn (⟨[], []⟩ : TableCols Nat) ("Left".toList) 0).2 = true ∧
     addNamedColumn (addNamedColumn (⟨[], []⟩ : TableCols Nat) ("Left".toList) 0).1
        ("LEFT".toList) 1 =
       ((addNamedColumn (⟨[], []⟩ : TableCols Nat) ("Left".toList) 0).1, false)) :=
  ⟨by decide, by decide,
   claim8_column_collision Nat ⟨[], []⟩ ("Left".toList) ("LEFT".toList) 0 1
     (by decide) (by decide)⟩

/-- C9: any line whose trimmed text matches "data:" after case folding —
not only the lowercase literal — switches the parser to the data section
and changes nothing else. -/
theorem claim9_data_case_insensitive (η ρ : Type) (hd : HeaderTab η)
    (tb : RowTab ρ) (st : YState η ρ) (s : List Char)
    (h : ssMatch dataLit (trimSeg s) = true) :
    parseLineY hd tb st s = ({ st with isHeaderSection := false }, none) := by
  cases hT : trimSeg s with
  | nil =>
    rw [hT] at h
    exact absurd h (by decide)
  | cons first rest =>
    rw [hT] at h
    have hdl : dataLit = 'd' :: "ata:".toList := rfl
    have hmemz : ('d', first) ∈ dataLit.zip (first :: rest) := by
      rw [hdl, List.zip_cons_cons]
      exact List.mem_cons_self _ _
    have hall := ((Bool.and_eq_true _ _).mp h).2
    have hhd : (tfToLower 'd' == tfToLower first) = true :=
      List.all_eq_true.mp hall _ hmemz
    have hfirst : tfToLower first = 'd' := by
      have h2 : tfToLower 'd' = tfToLower first := beq_iff_eq.mp hhd
      have h3 : tfToLower 'd' = 'd' := by decide
      rw [h3] at h2
      exact h2.symm
    have hne1 : first ≠ '#' := by
      intro he
      rw [he] at hfirst
      exact absurd hfirst (by decide)
    simp only [parseLineY, hT]
    rw [if_neg hne1, if_pos h]

/-- C9 witness: "  DATA: " (with spaces and upper case) switches the
section flag. -/
theorem claim9_data_case_insensitive_witness :
    (ssMatch dataLit (trimSeg ("  DATA: ".toList)) = true) ∧
    parseLineY hdN tbN (⟨true, 0, []⟩ : YState Nat Nat) ("  DATA: ".toList) =
      ((⟨false, 0, []⟩ : YState Nat Nat), none) :=
  ⟨by decide,
   claim9_data_case_insensitive Nat Nat hdN tbN ⟨true, 0, []⟩ ("  DATA: ".toList)
     (by decide)⟩

/-- C7 counterexample: a data-section line "- a:" is a structural violation
(empty value) and the parse failure is reported, yet the table IS modified:
`NewRow` has already appended a default-initialized row before the check
fires, so the rows list grows from [] to [0]. -/
theorem claim7_counterexample :
    structuralViolation (⟨false, 0, []⟩ : YState Nat Nat) ("- a:".toList) = true ∧
    (parseLineY hdN tbN (⟨false, 0, []⟩ : YState Nat Nat) ("- a:".toList)).2.isSome
      = true ∧
    (parseLineY hdN tbN (⟨false, 0, []⟩ : YState Nat Nat) ("- a:".toList)).1.rows
      ≠ ([] : List Nat) := by
  exact ⟨by decide, by decide, by decide⟩

/-- C7 (amended): every structural violation (a `-` line in the header
section, an empty key or value after splitting at `:`, or a data-section
key/value line with no row yet) makes `ParseLine` report a `CheckCondition`
failure and write no key/value anywhere: the header, the section flag and
all existing rows are unchanged, and the rows list is unchanged except that
a data-section `-` line whose remainder has an empty key or value has
already appended one default-initialized row. -/
theorem claim7_amended_structural (η ρ : Type) (hd : HeaderTab η) (tb : RowTab ρ)
    (st : YState η ρ) (s : List Char)
    (h : structuralViolation st s = true) :
    (∃ m, (parseLineY hd tb st s).2 = some (LineFail.cond m)) ∧
    (parseLineY hd tb st s).1.header = st.header ∧
    (parseLineY hd tb st s).1.isHeaderSection = st.isHeaderSection ∧
    ((parseLineY hd tb st s).1.rows = st.rows ∨
     (parseLineY hd tb st s).1.rows = st.rows ++ [tb.newRow]) := by
  cases hT : trimSeg s with
  | nil =>
    simp only [structuralViolation, hT] at h
    exact absurd h (by decide)
  | cons first rest =>
    simp only [structuralViolation, hT] at h
    simp only [parseLineY, hT]
    by_cases h1 : first = '#'
    · rw [if_pos h1] at h
      exact absurd h (by decide)
    · rw [if_neg h1] at h ⊢
      by_cases h2 : ssMatch dataLit (first :: rest) = true
      · rw [if_pos h2] at h
        exact absurd h (by decide)
      · rw [if_neg h2] at h ⊢
        by_cases h3 : first = '-'
        · rw [if_pos h3] at h ⊢
          by_cases hHS : st.isHeaderSection = true
          · rw [if_pos hHS] at h ⊢
            exact ⟨⟨msgInvalidHeaderEntry, rfl⟩, rfl, rfl, Or.inl rfl⟩
          · rw [if_neg hHS] at h ⊢
            have hb := (Bool.and_eq_true _ _).mp h
            have hne : trimSeg rest ≠ [] := by
              intro hx
              rw [hx] at hb
              exact absurd hb.1 (by decide)
            rw [if_neg hne]
            rw [keyValueStep_emptyKV hd tb _ _ hb.2]
            exact ⟨⟨msgKeyOrValueEmpty, rfl⟩, rfl, rfl, Or.inr rfl⟩
        · rw [if_neg h3] at h ⊢
          rcases hkv : emptyKV (first :: rest) with _ | _
          · rw [hkv] at h
            simp only [Bool.false_or, Bool.and_eq_true, Bool.not_eq_true,
              List.isEmpty_eq_true] at h
            rw [keyValueStep_noRow hd tb st _ hkv (by simpa using h.1) h.2]
            exact ⟨⟨msgNoActiveRow, rfl⟩, rfl, rfl, Or.inl rfl⟩
          · rw [keyValueStep_emptyKV hd tb st _ hkv]
            exact ⟨⟨msgKeyOrValueEmpty, rfl⟩, rfl, rfl, Or.inl rfl⟩

/-- C7 (amended) witness: a `-` line while still in the header section. -/
theorem claim7_amended_structural_witness :
    structuralViolation (⟨true, 0, []⟩ : YState Nat Nat) ("- x".toList) = true ∧
    ((∃ m, (parseLineY hdN tbN (⟨true, 0, []⟩ : YState Nat Nat) ("- x".toList)).2 =
        some (LineFail.cond m)) ∧
     (parseLineY hdN tbN (⟨true, 0, []⟩ : YState Nat Nat) ("- x".toList)).1.header
        = 0 ∧
     (parseLineY hdN tbN (⟨true, 0, []⟩ : YState Nat Nat)
        ("- x".toList)).1.isHeaderSection = true ∧
     ((parseLineY hdN tbN (⟨true, 0, []⟩ : YState Nat Nat) ("- x".toList)).1.rows
        = ([] : List Nat) ∨
      (parseLineY hdN tbN (⟨true, 0, []⟩ : YState Nat Nat) ("- x".toList)).1.rows
        = [] ++ [tbN.newRow])) :=
  ⟨by decide,
   claim7_amended_structural Nat Nat hdN tbN ⟨true, 0, []⟩ ("- x".toList) (by decide)⟩

/-- C6: behaviour of `ParseFile` for any line parser.  An unopenable file
raises a `ParseError` naming the file (at line 0) in strict mode and just
leaves `IsOK()` false in lenient mode.  In strict mode every raised error
is a `ParseError` carrying the file name and the 1-based number of the
offending line, with the message prefixed `file:line: `.  Lenient mode
never raises; a lenient parse that ends with `IsOK()` false corresponds
exactly to a strict parse that raises, and it has stopped processing: any
lines appended after the failing one leave its result unchanged.  A parse
that reports no failure ends with `IsOK()` true, identically in both
modes. -/
theorem claim6_parsefile_modes (σ : Type)
    (pl : σ → List Char → σ × Option LineFail) (pp : σ → σ)
    (f : List Char) (s0 : σ) :
    (parseFileModel pl pp f none true s0 =
      Except.error ⟨composeMsg msgCannotOpen f 0, f, 0⟩) ∧
    (parseFileModel pl pp f none false s0 = Except.ok (s0, false)) ∧
    (∀ ls e, parseFileModel pl pp f (some ls) true s0 = Except.error e →
      e.file = f ∧ 1 ≤ e.line ∧ e.line ≤ ls.length ∧
      (f ≠ [] → ∃ r, e.msg = f ++ ':' :: ((toString e.line).toList ++ ':' :: ' ' :: r))) ∧
    (∀ ls e, parseFileModel pl pp f (some ls) false s0 ≠ Except.error e) ∧
    (∀ ls s1 b, parseFileModel pl pp f (some ls) true s0 = Except.ok (s1, b) →
      b = true ∧ parseFileModel pl pp f (some ls) false s0 = Except.ok (s1, true)) ∧
    (∀ ls s1, parseFileModel pl pp f (some ls) false s0 = Except.ok (s1, false) →
      (∃ e, parseFileModel pl pp f (some ls) true s0 = Except.error e) ∧
      (∀ extra, parseFileModel pl pp f (some (ls ++ extra)) false s0 =
        Except.ok (s1, false))) := by
  refine ⟨by rw [parseFileModel]; rfl, by rw [parseFileModel]; rfl, ?_, ?_, ?_, ?_⟩
  · intro ls e h
    rw [parseFileModel] at h
    obtain ⟨h1, h2, h3, h4⟩ := runLines_error_info pl f ls 0 (pp s0) e h
    exact ⟨h1, by omega, by omega, h4⟩
  · intro ls e h
    rw [parseFileModel] at h
    exact runLines_lenient_no_error pl f ls 0 (pp s0) e h
  · intro ls s1 b h
    rw [parseFileModel] at h ⊢
    exact runLines_strict_ok pl f ls 0 (pp s0) s1 b h
  · intro ls s1 h
    rw [parseFileModel] at h
    obtain ⟨h1, h2⟩ := runLines_lenient_fail pl f ls 0 (pp s0) s1 h
    constructor
    · obtain ⟨e, he⟩ := h1
      exact ⟨e, by rw [parseFileModel]; exact he⟩
    · intro extra
      rw [parseFileModel]
      exact h2 extra

/-- C6 witness: on the two-line file ["a", "bad"] the lenient parse stops
with state 1 and `IsOK()` false; the strict parse raises, and appending
lines does not change the lenient outcome. -/
theorem claim6_parsefile_modes_witness :
    (parseFileModel plW id ("t".toList) (some ["a".toList, "bad".toList]) false 0 =
      Except.ok (1, false)) ∧
    (∃ e, parseFileModel plW id ("t".toList) (some ["a".toList, "bad".toList]) true 0 =
      Except.error e) ∧
    (∀ extra, parseFileModel plW id ("t".toList)
      (some (["a".toList, "bad".toList] ++ extra)) false 0 = Except.ok (1, false)) := by
  have h1 : parseFileModel plW id ("t".toList)
      (some ["a".toList, "bad".toList]) false 0 = Except.ok (1, false) := by
    rfl
  have h2 := (claim6_parsefile_modes Nat plW id ("t".toList) 0).2.2.2.2.2
      ["a".toList, "bad".toList] 1 h1
  exact ⟨h1, h2.1, h2.2⟩
